import Mathlib

/- Verification of the spending-analyzer ingestion pipeline from
   src/spending_analyzer.py: schema detection (read_csv), keyword
   categorization (categorize_transaction), merge / dedup / sort
   (process_files) and insight aggregation (generate_insights).
   Machine floats are modelled by exact rationals, calendar dates by
   their yyyymmdd numeral (strictly monotone in calendar order), and
   pandas library calls by executable functions mirroring their
   documented behavior on the value shapes this program feeds them. -/

/-- Membership test of the character class of the amount-column
heuristic regex (digits, dot, minus, dollar). -/
def isAmtChar (c : Char) : Bool :=
  c.isDigit || c = '.' || c = '-' || c = '$'

/-- Numeric value of a decimal digit character. -/
def digitVal (c : Char) : Nat := c.toNat - '0'.toNat

/-- Value of a list of decimal digit characters, most significant first. -/
def digitsVal (cs : List Char) : Nat := cs.foldl (fun n c => 10 * n + digitVal c) 0

/-- Date encoded as the numeral yyyymmdd; the encoding is strictly
monotone in calendar order, so Nat comparison is date comparison. -/
abbrev PDate := Nat

/-- Plausibility check of a year/month/day triple. -/
def validYMD (y m d : Nat) : Bool :=
  1 ≤ y && 1 ≤ m && m ≤ 12 && 1 ≤ d && d ≤ 31

/-- Modelled library call: `pd.to_datetime` on one string, restricted to
the shapes this development feeds it: ISO "YYYY-MM-DD" and compact
8-digit "YYYYMMDD" (pandas parses 8-digit strings as %Y%m%d). Other
shapes are rejected; day validity is approximated by the range 1..31. -/
def parseDate (s : String) : Option PDate :=
  match s.toList with
  | [y1, y2, y3, y4, h1, m1, m2, h2, d1, d2] =>
    if h1 = '-' && h2 = '-' && [y1, y2, y3, y4, m1, m2, d1, d2].all Char.isDigit then
      let y := digitsVal [y1, y2, y3, y4]
      let m := digitsVal [m1, m2]
      let d := digitsVal [d1, d2]
      if validYMD y m d then some (y * 10000 + m * 100 + d) else none
    else none
  | [y1, y2, y3, y4, m1, m2, d1, d2] =>
    if [y1, y2, y3, y4, m1, m2, d1, d2].all Char.isDigit then
      let y := digitsVal [y1, y2, y3, y4]
      let m := digitsVal [m1, m2]
      let d := digitsVal [d1, d2]
      if validYMD y m d then some (y * 10000 + m * 100 + d) else none
    else none
  | _ => none

/-- Modelled library call: `pd.to_numeric` on one plain decimal string:
optional sign, integer part, optional fractional part, at least one
digit overall. Exponents are not modelled (unused by these inputs);
exact rationals stand in for parsed floats. -/
def parseNumeric (s : String) : Option Rat :=
  let cs := s.toList
  let signed : Bool × List Char :=
    match cs with
    | '-' :: rest => (true, rest)
    | '+' :: rest => (false, rest)
    | _ => (false, cs)
  let neg := signed.1
  let body := signed.2
  let intPart := body.takeWhile (fun c => c ≠ '.')
  let rest := body.dropWhile (fun c => c ≠ '.')
  if intPart.all Char.isDigit then
    match rest with
    | [] =>
      if intPart.isEmpty then none
      else
        let q : Rat := (digitsVal intPart : Nat)
        some (if neg then -q else q)
    | '.' :: frac =>
      if frac.all Char.isDigit && !(intPart.isEmpty && frac.isEmpty) then
        let q : Rat := (digitsVal intPart : Nat) + mkRat (digitsVal frac) (10 ^ frac.length)
        some (if neg then -q else q)
      else none
    | _ => none
  else none

/-- Characters deleted by `.str.replace('[\$,]', '', regex=True)`. -/
def stripCurrency (s : String) : String :=
  ⟨s.toList.filter (fun c => c ≠ '$' && c ≠ ',')⟩

/-- One raw column's values tagged with the inferred dtype: `nums` for
numeric dtypes (int64/float64), `strs` for object (text) columns,
`dates` for a natively date-typed column. -/
inductive ColData where
  | nums (vs : List Rat)
  | strs (vs : List String)
  | dates (vs : List PDate)
deriving DecidableEq

/-- A raw table: the ordered columns, each a name with its data. -/
abbrev RawTable := List (String × ColData)

/-- First column, left to right, whose data satisfies `p` (the shape of
both detection loops of `read_csv`). -/
def findCol (p : ColData → Bool) : RawTable → Option String
  | [] => none
  | (name, d) :: rest => if p d then some name else findCol p rest

/-- Modelled library call: `pd.to_datetime` over a whole text column
succeeds exactly when every value parses. -/
def pdToDatetimeOk (vs : List String) : Bool :=
  vs.all (fun s => (parseDate s).isSome)

/-- The date-column test of `read_csv`: object dtype, and
`pd.to_datetime` succeeds on the column. -/
def dateSelectable : ColData → Bool
  | ColData.strs vs => pdToDatetimeOk vs
  | _ => false

/-- The date-column scan of `read_csv`. -/
def findDateCol (t : RawTable) : Option String := findCol dateSelectable t

/-- The amount-column test of `read_csv`: numeric dtype, or object
dtype with `df[col].str.contains(r'[\d\.\-\$]').all()`; note
`contains` is a search, so a value passes when at least one of its
characters lies in the class. -/
def amountEligible : ColData → Bool
  | ColData.nums _ => true
  | ColData.strs vs => vs.all (fun s => s.toList.any isAmtChar)
  | ColData.dates _ => false

/-- The amount-column scan of `read_csv`. -/
def findAmountCol (t : RawTable) : Option String := findCol amountEligible t

/-- Data of the named column (first occurrence wins, as in a pandas
column lookup of a detected name). -/
def colData (t : RawTable) (c : String) : ColData :=
  match t.find? (fun p => p.1 == c) with
  | some p => p.2
  | none => ColData.strs []

/-- Values of the first object (text) column, the description source
(`df.select_dtypes(include=['object']).iloc[:, 0]`). On the success
path of `read_csv` such a column always exists, since the chosen date
column is text. -/
def firstStrsCol : RawTable → List String
  | [] => []
  | (_, ColData.strs vs) :: _ => vs
  | _ :: rest => firstStrsCol rest

/-- Modelled amount extraction:
`pd.to_numeric(df[ac].astype(str).str.replace('[\$,]','',regex=True))`.
A numeric column round-trips; a text column is stripped of currency
characters and parsed, any failure aborting the file. -/
def parseAmounts : ColData → Except String (List Rat)
  | ColData.nums vs => Except.ok vs
  | ColData.strs vs =>
    let parsed := vs.map (fun s => parseNumeric (stripCurrency s))
    if parsed.all Option.isSome then Except.ok (parsed.map (fun o => o.getD 0))
    else Except.error "amount parse error"
  | ColData.dates _ => Except.error "amount parse error"

/-- A canonical transaction before categorization. -/
structure Txn where
  date : PDate
  description : String
  amount : Rat
deriving DecidableEq

instance : Inhabited Txn := ⟨⟨0, "", 0⟩⟩

/-- Normalization of one raw table (the source's `read_csv`): detect
the date and the amount column, raise if either is missing, then build
canonical records row by row over the date column's length. -/
def read_csv (t : RawTable) : Except String (List Txn) :=
  match findDateCol t, findAmountCol t with
  | some dc, some ac =>
    match parseAmounts (colData t ac) with
    | Except.error e => Except.error e
    | Except.ok amounts =>
      let dateStrs := match colData t dc with | ColData.strs vs => vs | _ => []
      let dates := dateStrs.map (fun s => (parseDate s).getD 0)
      let descs := firstStrsCol t
      Except.ok ((List.range dates.length).map (fun i =>
        { date := dates.getD i 0
          description := descs.getD i ""
          amount := amounts.getD i 0 }))
  | _, _ => Except.error "Could not identify date and amount columns"

/-- Does `p` start the list `s` (character-wise)? -/
def startsWithChars : List Char → List Char → Bool
  | [], _ => true
  | _ :: _, [] => false
  | a :: p, b :: h => a = b && startsWithChars p h

/-- Does `p` occur contiguously inside `s`? -/
def containsSub (p : List Char) : List Char → Bool
  | [] => p.isEmpty
  | c :: t => startsWithChars p (c :: t) || containsSub p t

/-- Python's substring test `p in s`. -/
def substrB (p s : String) : Bool := containsSub p.toList s.toList

/-- Lower-casing of one character, ASCII range. -/
def lowerChar (c : Char) : Char :=
  if 'A' ≤ c ∧ c ≤ 'Z' then Char.ofNat (c.toNat + 32) else c

/-- Modelled from Python `str.lower()`: character-wise lower-casing,
restricted to ASCII (every keyword and every input of this development
is ASCII). -/
def pyLower (s : String) : String := ⟨s.toList.map lowerChar⟩

def groceriesKeywords : List String :=
  ["grocery", "food", "market", "trader", "whole foods"]

def diningKeywords : List String :=
  ["restaurant", "cafe", "coffee", "doordash", "uber eats"]

def transportKeywords : List String :=
  ["uber", "lyft", "taxi", "transit", "gas", "fuel"]

def shoppingKeywords : List String :=
  ["amazon", "target", "walmart", "store"]

def utilitiesKeywords : List String :=
  ["electric", "water", "gas", "internet", "phone"]

def entertainmentKeywords : List String :=
  ["netflix", "spotify", "movie", "theater"]

def healthKeywords : List String :=
  ["pharmacy", "doctor", "medical", "fitness"]

/-- The category keyword table `self.categories`, in declaration order
(Python dicts preserve insertion order). -/
def categories : List (String × List String) :=
  [("groceries", groceriesKeywords), ("dining", diningKeywords),
   ("transport", transportKeywords), ("shopping", shoppingKeywords),
   ("utilities", utilitiesKeywords), ("entertainment", entertainmentKeywords),
   ("health", healthKeywords)]

/-- Does any keyword of the list occur in the (lowered) description? -/
def matchesCat (kws : List String) (d : String) : Bool :=
  kws.any (fun kw => substrB kw d)

/-- The category loop: first matching entry wins, default "other". -/
def categorizeAux (d : String) : List (String × List String) → String
  | [] => "other"
  | (c, kws) :: rest => if matchesCat kws d then c else categorizeAux d rest

/-- The source's `categorize_transaction`. -/
def categorize_transaction (dsc : String) : String :=
  categorizeAux (pyLower dsc) categories

/-- Modelled library call `DataFrame.drop_duplicates()` (keep='first'):
keep the first occurrence of each full record; `seen` accumulates
the records already emitted. -/
def dropDupAux (seen : List Txn) : List Txn → List Txn
  | [] => []
  | x :: xs => if x ∈ seen then dropDupAux seen xs else x :: dropDupAux (x :: seen) xs

/-- Duplicate removal over whole records, first occurrence kept. -/
def drop_duplicates (l : List Txn) : List Txn := dropDupAux [] l

/-- Key of position `k` of the index segment `t`: numpy's argsort reads
keys through the index array (`v[tosort[k]]`). -/
def keyAt (v : Nat → Nat) (t : List Nat) (k : Nat) : Nat := v (t.getD k 0)

/-- Swap of two positions of an index list (numpy's INTP_SWAP). -/
def listSwap (t : List Nat) (i j : Nat) : List Nat :=
  let a := t.getD i 0
  let b := t.getD j 0
  (t.set i b).set j a

/-- Median-of-three pivot selection of numpy's argsort quicksort over
positions 0, (m-1)/2 and m-1, followed by parking the pivot index at
position m-2. -/
def medianOf3 (v : Nat → Nat) (t : List Nat) : List Nat :=
  let m := t.length
  let pm := (m - 1) / 2
  let t1 := if keyAt v t pm < keyAt v t 0 then listSwap t pm 0 else t
  let t2 := if keyAt v t1 (m - 1) < keyAt v t1 pm then listSwap t1 (m - 1) pm else t1
  let t3 := if keyAt v t2 pm < keyAt v t2 0 then listSwap t2 pm 0 else t2
  listSwap t3 pm (m - 2)

/-- Upward scan `do ++pi; while (v[tosort[pi]] < vp)`, fuel-bounded for
totality; on reachable states the pivot parked at m-2 is a sentinel
that stops the scan before the fuel runs out. -/
def scanUpF (v : Nat → Nat) (t : List Nat) (vp : Nat) : Nat → Nat → Nat
  | 0, i => i
  | fuel + 1, i => if keyAt v t i < vp then scanUpF v t vp fuel (i + 1) else i

/-- Upward scan with the canonical fuel. -/
def scanUp (v : Nat → Nat) (t : List Nat) (vp i : Nat) : Nat :=
  scanUpF v t vp t.length i

/-- Downward scan `do --pj; while (vp < v[tosort[pj]])`; the low
sentinel placed by median-of-three makes the guard false at 0 on
reachable states, matching the C loop that stops there. -/
def scanDown (v : Nat → Nat) (t : List Nat) (vp : Nat) : Nat → Nat
  | 0 => 0
  | j + 1 => if vp < keyAt v t (j + 1) then scanDown v t vp j else j + 1

/-- The Hoare partition loop of numpy's argsort quicksort: scan up from
pi+1, scan down from pj-1, stop when the scans cross, else swap and
continue. Fuel only serves totality (pj strictly decreases). -/
def partitionLoop (v : Nat → Nat) (vp : Nat) :
    Nat → List Nat → Nat → Nat → List Nat × Nat
  | 0, t, pi, _ => (t, pi)
  | fuel + 1, t, pi, pj =>
    let i := scanUp v t vp (pi + 1)
    let j := scanDown v t vp (pj - 1)
    if j ≤ i then (t, i)
    else partitionLoop v vp fuel (listSwap t i j) i j

/-- One partition step of numpy's argsort quicksort: median-of-three
and pivot parking, the scan loop, the final pivot placement; returns
the left block, the pivot index and the right block. -/
def npPartition (v : Nat → Nat) (t : List Nat) : List Nat × Nat × List Nat :=
  let m := t.length
  let t1 := medianOf3 v t
  let vp := keyAt v t1 (m - 2)
  let res := partitionLoop v vp m t1 0 (m - 2)
  let t2 := res.1
  let pi := res.2
  let t3 := listSwap t2 pi (m - 2)
  (t3.take pi, t3.getD pi 0, t3.drop (pi + 1))

/-- Numpy's argsort quicksort (the default `kind` of pandas
`sort_values`), in recursive form: segments of at most 16 indices are
insertion sorted (numpy partitions only while `pr - pl > 15`), larger
segments are partitioned and the halves sorted. The iterative stack of
the C code processes disjoint segments, so the recursive form computes
the same array. Numpy's small-segment pass is the stable insertion
sort of the segment, which `List.insertionSort` with the non-strict
key order also is. Fuel (called with the segment length) only serves
totality: partitions strictly shrink. The introsort heapsort fallback
at extreme depth is not modelled; it can differ only in the order of
equal keys on adversarial inputs, never in sortedness. -/
def npQuicksortF (v : Nat → Nat) : Nat → List Nat → List Nat
  | 0, t => List.insertionSort (fun a b => v a ≤ v b) t
  | fuel + 1, t =>
    if t.length ≤ 16 then List.insertionSort (fun a b => v a ≤ v b) t
    else
      let res := npPartition v t
      npQuicksortF v fuel res.1 ++ res.2.1 :: npQuicksortF v fuel res.2.2

/-- Argsort of a key list: sort the positions 0..n-1 by key. -/
def npArgsort (keys : List Nat) : List Nat :=
  npQuicksortF (fun i => keys.getD i 0) keys.length (List.range keys.length)

/-- Modelled library call `DataFrame.sort_values('date')` with the
default kind 'quicksort': reorder the rows along the argsort of the
date column. -/
def pdSortValuesByDate (rows : List Txn) : List Txn :=
  (npArgsort (rows.map Txn.date)).map (fun i => rows.getD i default)

/-- A categorized canonical transaction. -/
structure CTxn where
  date : PDate
  description : String
  amount : Rat
  category : String
deriving DecidableEq

/-- Category assignment
(`self.data['category'] = self.data['description'].apply(...)`). -/
def add_category (t : Txn) : CTxn :=
  ⟨t.date, t.description, t.amount, categorize_transaction t.description⟩

/-- The analyzer state: `self.data`, absent before the first successful
`process_files`. -/
structure Analyzer where
  data : Option (List CTxn)
deriving DecidableEq

/-- Record lists of the files that normalize successfully, in argument
order (the try/except of `process_files` skips failing files). -/
def successRecords (ts : List RawTable) : List (List Txn) :=
  ts.filterMap (fun t => (read_csv t).toOption)

/-- The source's `process_files`: read each file catching per-file
errors, raise if no file succeeded (before touching `self.data`), else
concatenate in argument order, drop duplicates, sort by date,
categorize, store and return. -/
def process_files (a : Analyzer) (ts : List RawTable) :
    Analyzer × Except String (List CTxn) :=
  let dfs := successRecords ts
  if dfs.isEmpty then (a, Except.error "No valid files to process")
  else
    let combined := dfs.flatten
    let deduped := drop_duplicates combined
    let sorted := pdSortValuesByDate deduped
    let categorized := sorted.map add_category
    ({ data := some categorized }, Except.ok categorized)

/-- The insight report (the `top_merchants` entry, untouched by the
claims under audit, is not modelled). -/
structure Insights where
  total_spending : Rat
  avg_monthly_spending : Rat
  spending_by_category : List (String × Rat)
  monthly_trend : List (Nat × Rat)

/-- Modelled library call `groupby(key)['amount'].sum()`: the distinct
keys in ascending order, each with the sum of its group's amounts. -/
def groupSum {κ : Type} [LinearOrder κ] [DecidableEq κ] (key : CTxn → κ) (l : List CTxn) :
    List (κ × Rat) :=
  (List.insertionSort (fun a b => a ≤ b) (l.map key).dedup).map
    (fun k => (k, ((l.filter (fun t => key t = k)).map (fun t => t.amount)).sum))

/-- The source's `generate_insights`: raise when `self.data is None`,
else aggregate. The month key `dt.to_period('M')` is the yyyymm
numeral, obtained from a yyyymmdd date by dividing by 100. -/
def generate_insights (a : Analyzer) : Except String Insights :=
  match a.data with
  | none => Except.error "No data available. Please process files first."
  | some d =>
    let trend := groupSum (fun c => c.date / 100) d
    Except.ok
      { total_spending := (d.map (fun c => c.amount)).sum
        avg_monthly_spending := (trend.map Prod.snd).sum / (trend.length : Rat)
        spending_by_category := groupSum (fun c => c.category) d
        monthly_trend := trend }

/- Concrete inputs used by the counterexamples and witnesses below. -/

/-- A first text column whose value "a1" contains a digit (so the
code's `.str.contains` search accepts it) together with a letter
outside the amount character class. -/
def exTableC2 : RawTable :=
  [("x", ColData.strs ["a1"]), ("d", ColData.strs ["2024-01-05"])]

/-- A single 8-digit date-string column: it date-parses and, after
stripping, numeric-parses. -/
def exTableC4 : RawTable := [("a", ColData.strs ["20240105"])]

/-- Seventeen rows sharing one date, told apart by their amounts; 17 is
the smallest segment numpy's quicksort partitions instead of
insertion-sorting. -/
def exTableC5 : RawTable :=
  [("amt", ColData.nums [1, 2, 3, 4, 5, 6, 7, 8, 9, 10, 11, 12, 13, 14, 15, 16, 17]),
   ("d", ColData.strs (List.replicate 17 "2024-01-05"))]

/-- A two-row table whose rows are out of date order. -/
def exTableSort : RawTable :=
  [("amt", ColData.nums [2, 1]), ("d", ColData.strs ["2024-01-06", "2024-01-05"])]

/-- A one-row table; processing it twice yields duplicate records. -/
def exTableDup : RawTable :=
  [("amt", ColData.nums [45]), ("d", ColData.strs ["2024-01-05"])]

/-- A header-only file: columns exist but carry zero rows. -/
def emptyTable : RawTable := [("d", ColData.strs [])]

/-- A table with no text column at all, so no date column is found and
normalization fails. -/
def badTable : RawTable := [("n", ColData.nums [1])]

/-- An analyzer holding the result of an earlier successful run. -/
def prevAnalyzer : Analyzer := ⟨some [⟨20240101, "x", 5, "other"⟩]⟩

/- General lemmas about the detection scans. -/

/-- The first-match shape shared by both detection loops. -/
theorem findCol_eq_some_iff (p : ColData → Bool) (cols : RawTable) (c : String) :
    findCol p cols = some c ↔
      ∃ pre d post, cols = pre ++ (c, d) :: post ∧ p d = true ∧
        ∀ q ∈ pre, p q.2 = false := by
  induction cols with
  | nil =>
    simp only [findCol]
    constructor
    · intro h; cases h
    · rintro ⟨pre, d, post, hcols, -, -⟩
      exact absurd hcols (by simp)
  | cons hd rest ih =>
    obtain ⟨n, d0⟩ := hd
    cases h : p d0 with
    | true =>
      simp only [findCol, h, if_pos]
      constructor
      · intro h'
        injection h' with h'
        exact ⟨[], d0, rest, by simp [h'], h, by simp⟩
      · rintro ⟨pre, d, post, hcols, hd, hpre⟩
        cases pre with
        | nil =>
          simp only [List.nil_append, List.cons.injEq] at hcols
          obtain ⟨hpair, -⟩ := hcols
          obtain ⟨h1, -⟩ := Prod.mk.injEq .. ▸ hpair
          · simp [← h1]
        | cons q pre₂ =>
          have hq : p (n, d0).2 = false := by
            apply hpre
            have : q = (n, d0) := by
              simp only [List.cons_append, List.cons.injEq] at hcols
              exact hcols.1.symm
            rw [this]; exact List.mem_cons_self _ _
          simp only at hq
          rw [h] at hq; cases hq
    | false =>
      simp only [findCol, h, Bool.false_eq_true, if_false]
      rw [ih]
      constructor
      · rintro ⟨pre, d, post, hcols, hd, hpre⟩
        refine ⟨(n, d0) :: pre, d, post, by simp [hcols], hd, ?_⟩
        intro q hq
        rcases List.mem_cons.mp hq with hq | hq
        · rw [hq]; exact h
        · exact hpre q hq
      · rintro ⟨pre, d, post, hcols, hd, hpre⟩
        cases pre with
        | nil =>
          simp only [List.nil_append, List.cons.injEq] at hcols
          obtain ⟨hpair, -⟩ := hcols
          have : d0 = d := congrArg Prod.snd hpair
          rw [this, hd] at h; cases h
        | cons q pre₂ =>
          simp only [List.cons_append, List.cons.injEq] at hcols
          refine ⟨pre₂, d, post, hcols.2, hd, ?_⟩
          intro q₂ hq₂
          exact hpre q₂ (List.mem_cons_of_mem _ hq₂)

/-- C3: the date column is the first column, in left-to-right column
order, that is text-typed with every value parsing as a calendar date;
numeric and natively date-typed columns are never selected, and a text
column with an unparseable value is never selected. -/
theorem date_col_first_match_spec (cols : RawTable) (c : String) :
    findDateCol cols = some c ↔
      ∃ pre vs post, cols = pre ++ (c, ColData.strs vs) :: post ∧
        vs.all (fun s => (parseDate s).isSome) = true ∧
        ∀ q ∈ pre, dateSelectable q.2 = false := by
  rw [findDateCol, findCol_eq_some_iff]
  constructor
  · rintro ⟨pre, d, post, hcols, hd, hpre⟩
    cases d with
    | strs vs => exact ⟨pre, vs, post, hcols, hd, hpre⟩
    | nums vs => simp [dateSelectable] at hd
    | dates vs => simp [dateSelectable] at hd
  · rintro ⟨pre, vs, post, hcols, hvs, hpre⟩
    exact ⟨pre, ColData.strs vs, post, hcols, hvs, hpre⟩

/-- C3 (witness): the characterization applied to a concrete table
whose first text column does not fully date-parse. -/
theorem date_col_first_match_witness :
    ∃ pre vs post, exTableC2 = pre ++ ("d", ColData.strs vs) :: post ∧
      vs.all (fun s => (parseDate s).isSome) = true ∧
      ∀ q ∈ pre, dateSelectable q.2 = false :=
  (date_col_first_match_spec exTableC2 "d").mp rfl

/-- C2 (amended): the amount column is the first column, left to right,
that is numeric-typed, or text-typed with every value containing at
least one character of the class digits, dot, minus, dollar — the
`.str.contains` check is a search, not a full match; natively
date-typed columns are never selected. -/
theorem amount_col_first_match_spec (cols : RawTable) (c : String) :
    findAmountCol cols = some c ↔
      ∃ pre d post, cols = pre ++ (c, d) :: post ∧
        ((∃ ns, d = ColData.nums ns) ∨
          (∃ vs, d = ColData.strs vs ∧
            vs.all (fun s => s.toList.any isAmtChar) = true)) ∧
        ∀ q ∈ pre, amountEligible q.2 = false := by
  rw [findAmountCol, findCol_eq_some_iff]
  constructor
  · rintro ⟨pre, d, post, hcols, hd, hpre⟩
    refine ⟨pre, d, post, hcols, ?_, hpre⟩
    cases d with
    | nums ns => exact Or.inl ⟨ns, rfl⟩
    | strs vs => exact Or.inr ⟨vs, rfl, hd⟩
    | dates vs => simp [amountEligible] at hd
  · rintro ⟨pre, d, post, hcols, hd, hpre⟩
    refine ⟨pre, d, post, hcols, ?_, hpre⟩
    rcases hd with ⟨ns, rfl⟩ | ⟨vs, rfl, hvs⟩
    · rfl
    · exact hvs

/-- C2 (witness): the amended characterization applied to a concrete
table. -/
theorem amount_col_first_match_witness :
    ∃ pre d post, exTableC2 = pre ++ ("x", d) :: post ∧
      ((∃ ns, d = ColData.nums ns) ∨
        (∃ vs, d = ColData.strs vs ∧
          vs.all (fun s => s.toList.any isAmtChar) = true)) ∧
      ∀ q ∈ pre, amountEligible q.2 = false :=
  (amount_col_first_match_spec exTableC2 "x").mp rfl

/-- C2 (counterexample): the column "x" is selected as the amount
column although its value "a1" has a character outside the class
digits, dot, minus, dollar — the code requires only that some
character of each value lie in the class, not all. -/
theorem amount_col_contains_counterexample :
    findAmountCol exTableC2 = some "x" ∧ "a1".toList.all isAmtChar = false := by
  exact ⟨rfl, rfl⟩

/- Categorization. -/

/-- The category loop is first-match with default "other". -/
theorem categorizeAux_eq_find (d : String) (l : List (String × List String)) :
    categorizeAux d l =
      ((l.find? (fun p => matchesCat p.2 d)).map Prod.fst).getD "other" := by
  induction l with
  | nil => rfl
  | cons hd rest ih =>
    obtain ⟨c, kws⟩ := hd
    cases h : matchesCat kws d with
    | true => simp [categorizeAux, List.find?, h]
    | false => simp [categorizeAux, List.find?, h, ih]

/-- C1: `categorize_transaction` lower-cases the description and scans
the categories in declaration order, returning the name of the first
category one of whose keywords occurs in the lowered description and
"other" if none matches; in particular a description containing "gas"
and matched by no keyword of the earlier categories groceries and
dining is assigned "transport" (declared before "utilities") and never
"utilities". -/
theorem categorize_transaction_first_match_gas :
    (∀ dsc : String,
      categorize_transaction dsc =
        ((categories.find? (fun p => matchesCat p.2 (pyLower dsc))).map Prod.fst).getD
          "other")
    ∧ (∀ dsc : String,
        substrB "gas" (pyLower dsc) = true →
        matchesCat groceriesKeywords (pyLower dsc) = false →
        matchesCat diningKeywords (pyLower dsc) = false →
        categorize_transaction dsc = "transport") := by
  constructor
  · intro dsc
    exact categorizeAux_eq_find _ _
  · intro dsc hgas hg hdin
    have htr : matchesCat transportKeywords (pyLower dsc) = true := by
      refine List.any_eq_true.mpr ⟨"gas", ?_, hgas⟩
      simp [transportKeywords]
    simp [categorize_transaction, categories, categorizeAux, hg, hdin, htr]

/-- C1 (witness): a concrete "gas" description is categorized
"transport". -/
theorem categorize_gas_witness : categorize_transaction "Shell Gas" = "transport" :=
  categorize_transaction_first_match_gas.2 "Shell Gas" (by decide) (by decide)
    (by decide)

/- Success and failure of read_csv. -/

/-- C4 (amended): `read_csv` succeeds exactly when a date column and an
amount column are found and every amount value parses after currency
stripping; the two detection scans are independent, so nothing forces
the two selected columns to differ. -/
theorem read_csv_success_characterization (t : RawTable) :
    (read_csv t).isOk = true ↔
      ∃ dc ac, findDateCol t = some dc ∧ findAmountCol t = some ac ∧
        (parseAmounts (colData t ac)).isOk = true := by
  cases hd : findDateCol t with
  | none => simp [read_csv, hd, Except.isOk, Except.toBool]
  | some dc =>
    cases ha : findAmountCol t with
    | none => simp [read_csv, hd, ha, Except.isOk, Except.toBool]
    | some ac =>
      cases hp : parseAmounts (colData t ac) with
      | error e => simp [read_csv, hd, ha, hp, Except.isOk, Except.toBool]
      | ok amounts => simp [read_csv, hd, ha, hp, Except.isOk, Except.toBool]

/-- C4 (witness): the success characterization applied to the one-column
table. -/
theorem read_csv_success_characterization_witness :
    ∃ dc ac, findDateCol exTableC4 = some dc ∧ findAmountCol exTableC4 = some ac ∧
      (parseAmounts (colData exTableC4 ac)).isOk = true :=
  (read_csv_success_characterization exTableC4).mp rfl

/-- C4 (counterexample): on the 8-digit date-string table `read_csv`
succeeds while the date scan and the amount scan select the same
column "a", so successful normalization does not keep the two
selections distinct. -/
theorem date_amount_same_column_counterexample :
    (read_csv exTableC4).isOk = true ∧
      findDateCol exTableC4 = some "a" ∧ findAmountCol exTableC4 = some "a" :=
  ⟨rfl, rfl, rfl⟩

/- Insights: the no-data check. -/

/-- C8 (amended): `generate_insights` fails with the no-data error
exactly when no transaction set has been stored (`self.data is None`);
a stored set succeeds even when it holds zero records. -/
theorem generate_insights_error_iff_unset (a : Analyzer) :
    (generate_insights a).isOk = false ↔ a.data = none := by
  cases h : a.data with
  | none => simp [generate_insights, h, Except.isOk, Except.toBool]
  | some d => simp [generate_insights, h, Except.isOk, Except.toBool]

/-- C8 (witness): the amended claim applied to a fresh analyzer. -/
theorem generate_insights_error_iff_unset_witness :
    (generate_insights ⟨none⟩).isOk = false :=
  (generate_insights_error_iff_unset ⟨none⟩).mpr rfl

/-- C8 (counterexample): a header-only file normalizes to zero records;
after processing it the stored transaction set is empty yet set, and
`generate_insights` succeeds instead of raising the no-data error. -/
theorem generate_insights_empty_data_counterexample :
    (process_files ⟨none⟩ [emptyTable]).1.data = some [] ∧
      (generate_insights (process_files ⟨none⟩ [emptyTable]).1).isOk = true :=
  ⟨rfl, rfl⟩

/- Batch behavior of process_files. -/

/-- When every file fails, no record list survives the per-file
try/except. -/
theorem successRecords_eq_nil (ts : List RawTable)
    (h : ∀ t ∈ ts, (read_csv t).toOption = none) : successRecords ts = [] := by
  rw [successRecords, List.filterMap_eq_nil_iff]
  exact h

/-- C10: when every input file fails normalization, `process_files`
raises the no-valid-files error before assigning the stored data, so a
previously stored transaction set is left unchanged. -/
theorem process_files_state_unchanged_on_failure (a : Analyzer) (ts : List RawTable)
    (h : ∀ t ∈ ts, (read_csv t).toOption = none) :
    process_files a ts = (a, Except.error "No valid files to process") := by
  simp only [process_files, successRecords_eq_nil ts h, List.isEmpty_nil, if_pos]

/-- C10 (witness): a failed run over a file with no text column leaves
an earlier run's stored state untouched. -/
theorem process_files_state_unchanged_witness :
    process_files prevAnalyzer [badTable] =
      (prevAnalyzer, Except.error "No valid files to process") :=
  process_files_state_unchanged_on_failure prevAnalyzer [badTable] (by decide)

/-- An Except is ok exactly when its Option view is some. -/
theorem except_toOption_eq_none {ε α : Type} (e : Except ε α) :
    e.toOption = none ↔ e.isOk = false := by
  cases e <;> simp [Except.toOption, Except.isOk, Except.toBool]

/-- Dropping the failing files changes nothing: the surviving record
lists are those of the successful files. -/
theorem successRecords_filter (ts : List RawTable) :
    successRecords (ts.filter (fun t => (read_csv t).isOk)) = successRecords ts := by
  induction ts with
  | nil => rfl
  | cons hd rest ih =>
    cases h : read_csv hd with
    | ok v =>
      simp only [successRecords] at ih ⊢
      simp only [Except.toOption, Except.isOk, Except.toBool] at ih
      simp [h, Except.toOption, Except.isOk, Except.toBool, ih]
    | error e =>
      simp only [successRecords] at ih ⊢
      simp only [Except.toOption, Except.isOk, Except.toBool] at ih
      simp [h, Except.toOption, Except.isOk, Except.toBool, ih]

/-- C7: `process_files` catches each per-file failure and continues:
its returned value equals the one computed from exactly the
successfully normalized files in argument order, and it raises the
no-valid-files error exactly when no file normalizes successfully. -/
theorem process_files_skips_failures (a : Analyzer) (ts : List RawTable) :
    ((process_files a ts).2 =
      (process_files a (ts.filter (fun t => (read_csv t).isOk))).2)
    ∧ ((process_files a ts).2.isOk = false ↔
        ∀ t ∈ ts, (read_csv t).isOk = false) := by
  constructor
  · simp only [process_files, successRecords_filter]
  · have hchar : successRecords ts = [] ↔ ∀ t ∈ ts, (read_csv t).isOk = false := by
      rw [successRecords, List.filterMap_eq_nil_iff]
      constructor
      · intro h t ht
        exact (except_toOption_eq_none (read_csv t)).mp (h t ht)
      · intro h t ht
        exact (except_toOption_eq_none (read_csv t)).mpr (h t ht)
    cases hdfs : (successRecords ts).isEmpty with
    | true =>
      have h0 : successRecords ts = [] := List.isEmpty_iff.mp hdfs
      simp only [process_files, hdfs, if_pos]
      simpa [Except.isOk, Except.toBool] using hchar.mp h0
    | false =>
      have h0 : ¬ successRecords ts = [] := by
        intro h
        rw [h] at hdfs
        cases hdfs
      simp only [process_files, hdfs, Bool.false_eq_true, if_false]
      constructor
      · intro h
        cases h
      · intro h
        exact absurd (hchar.mpr h) h0

/-- C7 (witness): one good and one bad file; the bad file is skipped
and the result matches the run over the good file alone. -/
theorem process_files_skips_failures_witness :
    ((process_files ⟨none⟩ [badTable, exTableDup]).2 =
      (process_files ⟨none⟩
        ([badTable, exTableDup].filter (fun t => (read_csv t).isOk))).2)
    ∧ ((process_files ⟨none⟩ [badTable, exTableDup]).2.isOk = false ↔
        ∀ t ∈ [badTable, exTableDup], (read_csv t).isOk = false) :=
  process_files_skips_failures ⟨none⟩ [badTable, exTableDup]

/- Insights: the category partition of the total. -/

/-- Sum of per-group sums over a duplicate-free key list covering every
record equals the total sum. -/
theorem sum_groups_eq_total {κ : Type} [DecidableEq κ] (key : CTxn → κ) :
    ∀ K : List κ, K.Nodup → ∀ l : List CTxn, (∀ t ∈ l, key t ∈ K) →
      (K.map (fun k =>
        ((l.filter (fun t => key t = k)).map (fun t => t.amount)).sum)).sum
        = (l.map (fun t => t.amount)).sum := by
  intro K
  induction K with
  | nil =>
    intro _ l hcov
    have hl : l = [] := by
      cases l with
      | nil => rfl
      | cons x xs => exact absurd (hcov x (List.mem_cons_self x xs)) (by simp)
    simp [hl]
  | cons k K ih =>
    intro hnd l hcov
    obtain ⟨hk, hnd2⟩ := List.nodup_cons.mp hnd
    have hsum : (l.map (fun t => t.amount)).sum =
        ((l.filter (fun t => key t = k)).map (fun t => t.amount)).sum +
          ((l.filter (fun t => !(decide (key t = k)))).map (fun t => t.amount)).sum := by
      have h1 := (List.filter_append_perm (fun t => decide (key t = k)) l).map
        (fun t => t.amount)
      have h2 := h1.sum_eq
      rw [List.map_append, List.sum_append] at h2
      exact h2.symm
    have hterm : ∀ k2 ∈ K,
        l.filter (fun t => key t = k2) =
          (l.filter (fun t => !(decide (key t = k)))).filter
            (fun t => key t = k2) := by
      intro k2 hk2
      rw [List.filter_filter]
      apply List.filter_congr
      intro x hx
      cases hxe : decide (key x = k2) with
      | false => simp [hxe]
      | true =>
        have hxk2 : key x = k2 := of_decide_eq_true hxe
        have hne2 : ¬ key x = k := by
          intro hcc
          have hkk2 : k = k2 := hcc.symm.trans hxk2
          exact hk (by rw [hkk2]; exact hk2)
        simp [hxe, hne2]
    have hcov2 : ∀ t ∈ l.filter (fun t => !(decide (key t = k))), key t ∈ K := by
      intro t ht
      obtain ⟨htl, htk⟩ := List.mem_filter.mp ht
      have : key t ≠ k := by
        intro hcc
        rw [hcc] at htk
        simp at htk
      rcases List.mem_cons.mp (hcov t htl) with h | h
      · exact absurd h this
      · exact h
    rw [List.map_cons, List.sum_cons]
    have hmapeq : K.map (fun k2 =>
        ((l.filter (fun t => key t = k2)).map (fun t => t.amount)).sum) =
        K.map (fun k2 =>
          (((l.filter (fun t => !(decide (key t = k)))).filter
            (fun t => key t = k2)).map (fun t => t.amount)).sum) := by
      apply List.map_congr_left
      intro k2 hk2
      rw [hterm k2 hk2]
    rw [hmapeq, ih hnd2 _ hcov2, ← hsum]

/-- C9: the insight report of a non-empty stored transaction set
satisfies the round trip: the per-category spending sums, the "other"
bucket included, add up exactly to the total spending (raw signs, no
absolute value). -/
theorem insights_category_sum_eq_total (a : Analyzer) (d : List CTxn)
    (hd : a.data = some d) (_hne : d ≠ []) :
    ∃ ins, generate_insights a = Except.ok ins ∧
      (ins.spending_by_category.map Prod.snd).sum = ins.total_spending := by
  obtain ⟨ad⟩ := a
  obtain rfl : ad = some d := hd
  refine ⟨_, rfl, ?_⟩
  show ((groupSum (fun c => c.category) d).map Prod.snd).sum =
    (d.map (fun c => c.amount)).sum
  rw [groupSum, List.map_map]
  have hnd : (List.insertionSort (fun a b => a ≤ b)
      (d.map (fun c => c.category)).dedup).Nodup :=
    (List.perm_insertionSort _ _).symm.nodup (List.nodup_dedup _)
  have hcov : ∀ t ∈ d, t.category ∈ List.insertionSort (fun a b => a ≤ b)
      (d.map (fun c => c.category)).dedup := by
    intro t ht
    rw [(List.perm_insertionSort _ _).mem_iff, List.mem_dedup]
    exact List.mem_map_of_mem _ ht
  refine Eq.trans (congrArg List.sum (List.map_congr_left ?_))
    (sum_groups_eq_total (fun c => c.category) _ hnd d hcov)
  intro k hk
  rfl

/-- C9 (witness): the round trip at a one-record stored set. -/
theorem insights_category_sum_witness :
    ∃ ins, generate_insights ⟨some [⟨20240105, "x", 45, "other"⟩]⟩ = Except.ok ins ∧
      (ins.spending_by_category.map Prod.snd).sum = ins.total_spending :=
  insights_category_sum_eq_total ⟨some [⟨20240105, "x", 45, "other"⟩]⟩
    [⟨20240105, "x", 45, "other"⟩] rfl (by decide)

/- Duplicate removal. -/

/-- Membership after duplicate removal: the survivors are the records
of the input that the accumulator has not already emitted. -/
theorem mem_dropDupAux (x : Txn) :
    ∀ (l seen : List Txn), x ∈ dropDupAux seen l ↔ x ∈ l ∧ x ∉ seen := by
  intro l
  induction l with
  | nil => intro seen; simp [dropDupAux]
  | cons y ys ih =>
    intro seen
    by_cases hy : y ∈ seen
    · rw [dropDupAux, if_pos hy, ih]
      constructor
      · rintro ⟨h1, h2⟩
        exact ⟨List.mem_cons_of_mem _ h1, h2⟩
      · rintro ⟨h1, h2⟩
        rcases List.mem_cons.mp h1 with rfl | h1
        · exact absurd hy h2
        · exact ⟨h1, h2⟩
    · rw [dropDupAux, if_neg hy]
      constructor
      · intro h
        rcases List.mem_cons.mp h with rfl | h
        · exact ⟨List.mem_cons_self _ _, hy⟩
        · obtain ⟨h1, h2⟩ := (ih (y :: seen)).mp h
          refine ⟨List.mem_cons_of_mem _ h1, ?_⟩
          intro hc
          exact h2 (List.mem_cons_of_mem _ hc)
      · rintro ⟨h1, h2⟩
        rcases List.mem_cons.mp h1 with rfl | h1
        · exact List.mem_cons_self _ _
        · by_cases hxy : x = y
          · subst hxy; exact List.mem_cons_self _ _
          · refine List.mem_cons_of_mem _ ((ih (y :: seen)).mpr ⟨h1, ?_⟩)
            intro hc
            rcases List.mem_cons.mp hc with h | h
            · exact hxy h
            · exact h2 h

/-- Duplicate removal emits no record twice. -/
theorem nodup_dropDupAux : ∀ (l seen : List Txn), (dropDupAux seen l).Nodup := by
  intro l
  induction l with
  | nil => intro seen; simp [dropDupAux]
  | cons y ys ih =>
    intro seen
    by_cases hy : y ∈ seen
    · rw [dropDupAux, if_pos hy]
      exact ih seen
    · rw [dropDupAux, if_neg hy]
      refine List.nodup_cons.mpr ⟨?_, ih (y :: seen)⟩
      intro hc
      exact ((mem_dropDupAux y ys (y :: seen)).mp hc).2 (List.mem_cons_self _ _)

/-- Membership is preserved by duplicate removal. -/
theorem mem_drop_duplicates (x : Txn) (l : List Txn) :
    x ∈ drop_duplicates l ↔ x ∈ l := by
  rw [drop_duplicates, mem_dropDupAux]
  simp

/-- The result of duplicate removal is duplicate-free. -/
theorem nodup_drop_duplicates (l : List Txn) : (drop_duplicates l).Nodup :=
  nodup_dropDupAux l []

/- The argsort quicksort model: swaps. -/

/-- Swapping preserves length. -/
theorem listSwap_length (t : List Nat) (i j : Nat) :
    (listSwap t i j).length = t.length := by
  simp [listSwap]

/-- Entries of a swapped list. -/
theorem getD_listSwap (t : List Nat) (i j k : Nat) (hi : i < t.length)
    (hj : j < t.length) :
    (listSwap t i j).getD k 0 =
      if j = k then t.getD i 0 else if i = k then t.getD j 0 else t.getD k 0 := by
  simp only [listSwap, List.getD_eq_getElem?_getD, List.getElem?_set, List.length_set]
  by_cases hjk : j = k
  · simp [hjk, hj, hjk ▸ hj]
  · by_cases hik : i = k
    · simp [hjk, hik, hik ▸ hi]
    · simp [hjk, hik]

/-- Replacing a position by a fresh value and moving the old value to
the front permutes a cons of the fresh value. -/
theorem getD_cons_set_perm (d : Nat) :
    ∀ (xs : List Nat) (m : Nat) (x : Nat), m < xs.length →
      (xs.getD m d :: xs.set m x).Perm (x :: xs) := by
  intro xs
  induction xs with
  | nil => intro m x hm; cases hm
  | cons y ys ih =>
    intro m x hm
    cases m with
    | zero =>
      simp only [List.getD_cons_zero, List.set_cons_zero]
      exact List.Perm.swap x y ys
    | succ m =>
      simp only [List.getD_cons_succ, List.set_cons_succ]
      refine List.Perm.trans (List.Perm.swap y (ys.getD m d) (ys.set m x)) ?_
      refine List.Perm.trans ((ih m x (by simpa using hm)).cons y) ?_
      exact List.Perm.swap x y ys

/-- Swapping two positions permutes the list. -/
theorem listSwap_perm : ∀ (t : List Nat) (i j : Nat), i < t.length → j < t.length →
    (listSwap t i j).Perm t := by
  intro t
  induction t with
  | nil => intro i j hi _; cases hi
  | cons x xs ih =>
    intro i j hi hj
    cases i with
    | zero =>
      cases j with
      | zero => simp [listSwap]
      | succ m =>
        have hm : m < xs.length := by simpa using hj
        simp only [listSwap, List.getD_cons_zero, List.getD_cons_succ, List.set_cons_zero,
          List.set_cons_succ]
        exact getD_cons_set_perm 0 xs m x hm
    | succ n =>
      cases j with
      | zero =>
        have hn : n < xs.length := by simpa using hi
        simp only [listSwap, List.getD_cons_zero, List.getD_cons_succ, List.set_cons_succ,
          List.set_cons_zero]
        exact getD_cons_set_perm 0 xs n x hn
      | succ m =>
        have hn : n < xs.length := by simpa using hi
        have hm : m < xs.length := by simpa using hj
        have h := (ih n m hn hm).cons x
        simp only [listSwap] at h ⊢
        simp only [List.getD_cons_succ, List.set_cons_succ]
        exact h

/- The argsort quicksort model: scans. -/

/-- The upward scan never moves left. -/
theorem scanUpF_ge (v : Nat → Nat) (t : List Nat) (vp : Nat) :
    ∀ fuel i, i ≤ scanUpF v t vp fuel i := by
  intro fuel
  induction fuel with
  | zero => intro i; exact Nat.le_refl i
  | succ fuel ih =>
    intro i
    rw [scanUpF]
    by_cases h : keyAt v t i < vp
    · rw [if_pos h]
      exact Nat.le_trans (Nat.le_succ i) (ih (i + 1))
    · rw [if_neg h]

/-- Positions passed by the upward scan carry keys below the pivot. -/
theorem scanUpF_scanned (v : Nat → Nat) (t : List Nat) (vp : Nat) :
    ∀ fuel i k, i ≤ k → k < scanUpF v t vp fuel i → keyAt v t k < vp := by
  intro fuel
  induction fuel with
  | zero =>
    intro i k hik hk
    rw [scanUpF] at hk
    omega
  | succ fuel ih =>
    intro i k hik hk
    rw [scanUpF] at hk
    by_cases h : keyAt v t i < vp
    · rw [if_pos h] at hk
      rcases Nat.eq_or_lt_of_le hik with rfl | hik2
      · exact h
      · exact ih (i + 1) k hik2 hk
    · rw [if_neg h] at hk
      omega

/-- With a stop position in reach, the upward scan does not pass it. -/
theorem scanUpF_le_stop (v : Nat → Nat) (t : List Nat) (vp : Nat) :
    ∀ fuel i s, i ≤ s → ¬ keyAt v t s < vp → s ≤ i + fuel →
      scanUpF v t vp fuel i ≤ s := by
  intro fuel
  induction fuel with
  | zero =>
    intro i s his _ hb
    rw [scanUpF]
    omega
  | succ fuel ih =>
    intro i s his hs hb
    rw [scanUpF]
    by_cases h : keyAt v t i < vp
    · rw [if_pos h]
      have hne : i ≠ s := by
        rintro rfl
        exact hs h
      exact ih (i + 1) s (by omega) hs (by omega)
    · rw [if_neg h]
      exact his

/-- The upward scan exhausts its fuel or stops at a key not below the
pivot. -/
theorem scanUpF_stop (v : Nat → Nat) (t : List Nat) (vp : Nat) :
    ∀ fuel i, scanUpF v t vp fuel i = i + fuel ∨
      ¬ keyAt v t (scanUpF v t vp fuel i) < vp := by
  intro fuel
  induction fuel with
  | zero =>
    intro i
    left
    rw [scanUpF]
    omega
  | succ fuel ih =>
    intro i
    rw [scanUpF]
    by_cases h : keyAt v t i < vp
    · rw [if_pos h]
      rcases ih (i + 1) with he | hr
      · left
        omega
      · right
        exact hr
    · rw [if_neg h]
      right
      exact h

/-- The downward scan never moves right. -/
theorem scanDown_le (v : Nat → Nat) (t : List Nat) (vp : Nat) :
    ∀ j, scanDown v t vp j ≤ j := by
  intro j
  induction j with
  | zero => simp [scanDown]
  | succ j ih =>
    rw [scanDown]
    by_cases h : vp < keyAt v t (j + 1)
    · rw [if_pos h]
      omega
    · rw [if_neg h]

/-- Positions passed by the downward scan carry keys above the pivot. -/
theorem scanDown_scanned (v : Nat → Nat) (t : List Nat) (vp : Nat) :
    ∀ j k, scanDown v t vp j < k → k ≤ j → vp < keyAt v t k := by
  intro j
  induction j with
  | zero =>
    intro k h1 h2
    omega
  | succ j ih =>
    intro k h1 h2
    rw [scanDown] at h1
    by_cases h : vp < keyAt v t (j + 1)
    · rw [if_pos h] at h1
      rcases Nat.eq_or_lt_of_le h2 with rfl | h2
      · exact h
      · exact ih k h1 (by omega)
    · rw [if_neg h] at h1
      omega

/-- With the low sentinel in place the downward scan stops at a key not
above the pivot. -/
theorem scanDown_stop (v : Nat → Nat) (t : List Nat) (vp : Nat)
    (h0 : ¬ vp < keyAt v t 0) : ∀ j, ¬ vp < keyAt v t (scanDown v t vp j) := by
  intro j
  induction j with
  | zero => simpa [scanDown] using h0
  | succ j ih =>
    rw [scanDown]
    by_cases h : vp < keyAt v t (j + 1)
    · rw [if_pos h]
      exact ih
    · rw [if_neg h]
      exact h

/- The argsort quicksort model: the partition loop. -/

/-- Invariant of the Hoare partition loop: starting from a state whose
prefix up to pi is at most the pivot, whose suffix from pj on is at
least the pivot, and whose position m-2 holds the pivot key, the loop
returns a permutation split at its final index into a low and a high
part, with the pivot key still parked at m-2. -/
theorem partitionLoop_spec (v : Nat → Nat) (vp : Nat) :
    ∀ (fuel : Nat) (t : List Nat) (pi pj : Nat),
      pj < fuel →
      pi < pj → pj ≤ t.length - 2 →
      (∀ k, k ≤ pi → keyAt v t k ≤ vp) →
      (∀ k, pj ≤ k → k < t.length → vp ≤ keyAt v t k) →
      keyAt v t (t.length - 2) = vp →
      ((partitionLoop v vp fuel t pi pj).1.Perm t) ∧
      (partitionLoop v vp fuel t pi pj).1.length = t.length ∧
      (∀ k, k < (partitionLoop v vp fuel t pi pj).2 →
        keyAt v (partitionLoop v vp fuel t pi pj).1 k ≤ vp) ∧
      (∀ k, (partitionLoop v vp fuel t pi pj).2 ≤ k → k < t.length →
        vp ≤ keyAt v (partitionLoop v vp fuel t pi pj).1 k) ∧
      keyAt v (partitionLoop v vp fuel t pi pj).1 (t.length - 2) = vp ∧
      pi < (partitionLoop v vp fuel t pi pj).2 ∧
      (partitionLoop v vp fuel t pi pj).2 ≤ t.length - 2 := by
  intro fuel
  induction fuel with
  | zero =>
    intro t pi pj hfuel
    exact absurd hfuel (Nat.not_lt_zero pj)
  | succ fuel ih =>
    intro t pi pj hfuel hij hpj hA hB hPiv
    have hsentUp : ¬ keyAt v t (t.length - 2) < vp := by
      rw [hPiv]
      exact Nat.lt_irrefl vp
    have hsent0 : ¬ vp < keyAt v t 0 := by
      have := hA 0 (Nat.zero_le pi)
      omega
    have hpi1 : pi + 1 ≤ t.length - 2 := by omega
    have hige : pi + 1 ≤ scanUp v t vp (pi + 1) := by
      rw [scanUp]
      exact scanUpF_ge v t vp t.length (pi + 1)
    have hile : scanUp v t vp (pi + 1) ≤ t.length - 2 := by
      rw [scanUp]
      exact scanUpF_le_stop v t vp t.length (pi + 1) (t.length - 2) hpi1 hsentUp
        (by omega)
    have histop : ¬ keyAt v t (scanUp v t vp (pi + 1)) < vp := by
      rw [scanUp]
      rcases scanUpF_stop v t vp t.length (pi + 1) with he | hr
      · exfalso
        rw [scanUp] at hile
        omega
      · exact hr
    have hiscan : ∀ k, pi + 1 ≤ k → k < scanUp v t vp (pi + 1) → keyAt v t k < vp := by
      intro k h1 h2
      rw [scanUp] at h2
      exact scanUpF_scanned v t vp t.length (pi + 1) k h1 h2
    have hjle : scanDown v t vp (pj - 1) ≤ pj - 1 := scanDown_le v t vp (pj - 1)
    have hjstop : ¬ vp < keyAt v t (scanDown v t vp (pj - 1)) :=
      scanDown_stop v t vp hsent0 (pj - 1)
    have hjscan : ∀ k, scanDown v t vp (pj - 1) < k → k ≤ pj - 1 →
        vp < keyAt v t k :=
      fun k h1 h2 => scanDown_scanned v t vp (pj - 1) k h1 h2
    rw [partitionLoop]
    by_cases hbr : scanDown v t vp (pj - 1) ≤ scanUp v t vp (pi + 1)
    · rw [if_pos hbr]
      refine ⟨List.Perm.refl t, rfl, ?_, ?_, hPiv, by omega, hile⟩
      · intro k hk
        rcases Nat.lt_or_ge k (pi + 1) with hk2 | hk2
        · exact hA k (by omega)
        · exact Nat.le_of_lt (hiscan k hk2 hk)
      · intro k hk1 hk2
        rcases Nat.eq_or_lt_of_le hk1 with he | hk1
        · rw [← he]
          exact Nat.le_of_not_lt histop
        · rcases Nat.lt_or_ge k pj with hk3 | hk3
          · exact Nat.le_of_lt (hjscan k (by omega) (by omega))
          · exact hB k hk3 hk2
    · rw [if_neg hbr]
      have hji : scanUp v t vp (pi + 1) < scanDown v t vp (pj - 1) :=
        Nat.lt_of_not_le hbr
      have hilt : scanUp v t vp (pi + 1) < t.length := by omega
      have hjlt : scanDown v t vp (pj - 1) < t.length := by omega
      have hswlen : (listSwap t (scanUp v t vp (pi + 1)) (scanDown v t vp (pj - 1))).length
          = t.length :=
        listSwap_length t _ _
      have hswget : ∀ k,
          keyAt v (listSwap t (scanUp v t vp (pi + 1)) (scanDown v t vp (pj - 1))) k =
            if scanDown v t vp (pj - 1) = k then keyAt v t (scanUp v t vp (pi + 1))
            else if scanUp v t vp (pi + 1) = k then keyAt v t (scanDown v t vp (pj - 1))
            else keyAt v t k := by
        intro k
        rw [keyAt, getD_listSwap t _ _ k hilt hjlt]
        by_cases h1 : scanDown v t vp (pj - 1) = k
        · rw [if_pos h1, if_pos h1]
          rfl
        · rw [if_neg h1, if_neg h1]
          by_cases h2 : scanUp v t vp (pi + 1) = k
          · rw [if_pos h2, if_pos h2]
            rfl
          · rw [if_neg h2, if_neg h2]
            rfl
      have hA2 : ∀ k, k ≤ scanUp v t vp (pi + 1) →
          keyAt v (listSwap t (scanUp v t vp (pi + 1)) (scanDown v t vp (pj - 1))) k
            ≤ vp := by
        intro k hk
        rw [hswget k]
        by_cases h1 : scanDown v t vp (pj - 1) = k
        · exfalso
          omega
        · rw [if_neg h1]
          by_cases h2 : scanUp v t vp (pi + 1) = k
          · rw [if_pos h2]
            exact Nat.le_of_not_lt hjstop
          · rw [if_neg h2]
            have hki : k < scanUp v t vp (pi + 1) := by omega
            rcases Nat.lt_or_ge k (pi + 1) with h3 | h3
            · exact hA k (by omega)
            · exact Nat.le_of_lt (hiscan k h3 hki)
      have hB2 : ∀ k, scanDown v t vp (pj - 1) ≤ k →
          k < (listSwap t (scanUp v t vp (pi + 1)) (scanDown v t vp (pj - 1))).length →
          vp ≤ keyAt v
            (listSwap t (scanUp v t vp (pi + 1)) (scanDown v t vp (pj - 1))) k := by
        intro k hk1 hk2
        rw [hswlen] at hk2
        rw [hswget k]
        by_cases h1 : scanDown v t vp (pj - 1) = k
        · rw [if_pos h1]
          exact Nat.le_of_not_lt histop
        · rw [if_neg h1]
          have hjk : scanDown v t vp (pj - 1) < k := by omega
          have h2 : ¬ scanUp v t vp (pi + 1) = k := by omega
          rw [if_neg h2]
          rcases Nat.lt_or_ge k pj with h3 | h3
          · exact Nat.le_of_lt (hjscan k hjk (by omega))
          · exact hB k h3 hk2
      have hPiv2 : keyAt v
          (listSwap t (scanUp v t vp (pi + 1)) (scanDown v t vp (pj - 1)))
          ((listSwap t (scanUp v t vp (pi + 1)) (scanDown v t vp (pj - 1))).length - 2)
          = vp := by
        rw [hswlen, hswget]
        have h1 : ¬ scanDown v t vp (pj - 1) = t.length - 2 := by omega
        have h2 : ¬ scanUp v t vp (pi + 1) = t.length - 2 := by omega
        rw [if_neg h1, if_neg h2]
        exact hPiv
      have hrec := ih (listSwap t (scanUp v t vp (pi + 1)) (scanDown v t vp (pj - 1)))
        (scanUp v t vp (pi + 1)) (scanDown v t vp (pj - 1)) (by omega) hji
        (by rw [hswlen]; omega) hA2 hB2 hPiv2
      obtain ⟨hp1, hp2, hp3, hp4, hp5, hp6, hp7⟩ := hrec
      rw [hswlen] at hp2 hp5 hp7
      refine ⟨hp1.trans (listSwap_perm t _ _ hilt hjlt), hp2, hp3, ?_, hp5, by omega,
        hp7⟩
      intro k hk1 hk2
      exact hp4 k hk1 (by rw [hswlen]; exact hk2)

/- The argsort quicksort model: median of three. -/

/-- Keys of a swapped list. -/
theorem keyAt_listSwap (v : Nat → Nat) (t : List Nat) (i j k : Nat)
    (hi : i < t.length) (hj : j < t.length) :
    keyAt v (listSwap t i j) k =
      if j = k then keyAt v t i else if i = k then keyAt v t j else keyAt v t k := by
  rw [keyAt, getD_listSwap t i j k hi hj]
  by_cases h1 : j = k
  · rw [if_pos h1, if_pos h1]
    rfl
  · rw [if_neg h1, if_neg h1]
    by_cases h2 : i = k
    · rw [if_pos h2, if_pos h2]
      rfl
    · rw [if_neg h2, if_neg h2]
      rfl

/-- A conditional swap `if v[a] < v[b] then swap a b` orders the two
keys (b low, a high), keeps every other key, and permutes the list. -/
theorem condSwap_spec (v : Nat → Nat) (u : List Nat) (a b : Nat) (ha : a < u.length)
    (hb : b < u.length) (hne : a ≠ b) :
    ((if keyAt v u a < keyAt v u b then listSwap u a b else u).Perm u) ∧
    (if keyAt v u a < keyAt v u b then listSwap u a b else u).length = u.length ∧
    keyAt v (if keyAt v u a < keyAt v u b then listSwap u a b else u) b ≤
      keyAt v (if keyAt v u a < keyAt v u b then listSwap u a b else u) a ∧
    (∀ c, keyAt v u a ≤ c → keyAt v u b ≤ c →
      keyAt v (if keyAt v u a < keyAt v u b then listSwap u a b else u) a ≤ c) ∧
    (keyAt v u a ≤ keyAt v (if keyAt v u a < keyAt v u b then listSwap u a b else u) a
      ∧ keyAt v u b ≤
        keyAt v (if keyAt v u a < keyAt v u b then listSwap u a b else u) a) ∧
    ∀ k, k ≠ a → k ≠ b →
      keyAt v (if keyAt v u a < keyAt v u b then listSwap u a b else u) k =
        keyAt v u k := by
  by_cases c : keyAt v u a < keyAt v u b
  · rw [if_pos c]
    have ea : keyAt v (listSwap u a b) a = keyAt v u b := by
      rw [keyAt_listSwap v u a b a ha hb, if_neg (Ne.symm hne), if_pos rfl]
    have eb : keyAt v (listSwap u a b) b = keyAt v u a := by
      rw [keyAt_listSwap v u a b b ha hb, if_pos rfl]
    refine ⟨listSwap_perm u a b ha hb, listSwap_length u a b, by omega,
      fun c2 h1 h2 => by omega, by omega, ?_⟩
    intro k hka hkb
    rw [keyAt_listSwap v u a b k ha hb, if_neg (fun h => hkb h.symm),
      if_neg (fun h => hka h.symm)]
  · rw [if_neg c]
    exact ⟨List.Perm.refl u, rfl, by omega, fun c2 h1 _ => h1, by omega,
      fun k _ _ => rfl⟩

/-- Median-of-three with pivot parking: the result is a permutation of
the input of the same length whose key at 0 is at most the pivot key
parked at m-2, itself at most the key at m-1. -/
theorem medianOf3_spec (v : Nat → Nat) (t : List Nat) (hm : 17 ≤ t.length) :
    (medianOf3 v t).Perm t ∧ (medianOf3 v t).length = t.length ∧
    keyAt v (medianOf3 v t) 0 ≤ keyAt v (medianOf3 v t) (t.length - 2) ∧
    keyAt v (medianOf3 v t) (t.length - 2) ≤ keyAt v (medianOf3 v t) (t.length - 1) := by
  have hpm1 : 0 < (t.length - 1) / 2 := by omega
  have hpm2 : (t.length - 1) / 2 ≤ t.length - 3 := by omega
  obtain ⟨p1, l1, ba1, ub1, ge1, o1⟩ :=
    condSwap_spec v t ((t.length - 1) / 2) 0 (by omega) (by omega) (by omega)
  set u1 := if keyAt v t ((t.length - 1) / 2) < keyAt v t 0
    then listSwap t ((t.length - 1) / 2) 0 else t with hu1
  obtain ⟨p2, l2, ba2, ub2, ge2, o2⟩ :=
    condSwap_spec v u1 (t.length - 1) ((t.length - 1) / 2) (by omega) (by omega)
      (by omega)
  set u2 := if keyAt v u1 (t.length - 1) < keyAt v u1 ((t.length - 1) / 2)
    then listSwap u1 (t.length - 1) ((t.length - 1) / 2) else u1 with hu2
  obtain ⟨p3, l3, ba3, ub3, ge3, o3⟩ :=
    condSwap_spec v u2 ((t.length - 1) / 2) 0 (by omega) (by omega) (by omega)
  set u3 := if keyAt v u2 ((t.length - 1) / 2) < keyAt v u2 0
    then listSwap u2 ((t.length - 1) / 2) 0 else u2 with hu3
  have hgoal : medianOf3 v t = listSwap u3 ((t.length - 1) / 2) (t.length - 2) := rfl
  rw [hgoal]
  have hswp : (listSwap u3 ((t.length - 1) / 2) (t.length - 2)).Perm u3 :=
    listSwap_perm u3 _ _ (by omega) (by omega)
  have hswl : (listSwap u3 ((t.length - 1) / 2) (t.length - 2)).length = u3.length :=
    listSwap_length u3 _ _
  have hkey : ∀ k, keyAt v (listSwap u3 ((t.length - 1) / 2) (t.length - 2)) k =
      if t.length - 2 = k then keyAt v u3 ((t.length - 1) / 2)
      else if (t.length - 1) / 2 = k then keyAt v u3 (t.length - 2)
      else keyAt v u3 k :=
    fun k => keyAt_listSwap v u3 _ _ k (by omega) (by omega)
  have hk0 : keyAt v (listSwap u3 ((t.length - 1) / 2) (t.length - 2)) 0 =
      keyAt v u3 0 := by
    rw [hkey 0, if_neg (by omega), if_neg (by omega)]
  have hkm2 : keyAt v (listSwap u3 ((t.length - 1) / 2) (t.length - 2)) (t.length - 2) =
      keyAt v u3 ((t.length - 1) / 2) := by
    rw [hkey (t.length - 2), if_pos rfl]
  have hkm1 : keyAt v (listSwap u3 ((t.length - 1) / 2) (t.length - 2)) (t.length - 1) =
      keyAt v u3 (t.length - 1) := by
    rw [hkey (t.length - 1), if_neg (by omega), if_neg (by omega)]
  have ho3m1 : keyAt v u3 (t.length - 1) = keyAt v u2 (t.length - 1) :=
    o3 (t.length - 1) (by omega) (by omega)
  have ho2z : keyAt v u2 0 = keyAt v u1 0 := o2 0 (by omega) (by omega)
  refine ⟨hswp.trans (p3.trans (p2.trans p1)), by rw [hswl, l3, l2, l1], ?_, ?_⟩
  · rw [hk0, hkm2]
    exact ba3
  · rw [hkm2, hkm1, ho3m1]
    refine ub3 (keyAt v u2 (t.length - 1)) ba2 ?_
    rw [ho2z]
    exact Nat.le_trans ba1 ge2.2

/- The argsort quicksort model: the partition step. -/

/-- Members of a take are entries at indices below the cut. -/
theorem mem_take_getElem (l : List Nat) (n x : Nat) (h : x ∈ l.take n) :
    ∃ k, k < n ∧ ∃ hk : k < l.length, l[k] = x := by
  rw [List.mem_iff_getElem] at h
  obtain ⟨k, hk, he⟩ := h
  rw [List.length_take] at hk
  refine ⟨k, by omega, by omega, ?_⟩
  rw [← he, List.getElem_take]

/-- Members of a drop are entries at indices from the cut on. -/
theorem mem_drop_getElem (l : List Nat) (n x : Nat) (h : x ∈ l.drop n) :
    ∃ k, n ≤ k ∧ ∃ hk : k < l.length, l[k] = x := by
  rw [List.mem_iff_getElem] at h
  obtain ⟨k, hk, he⟩ := h
  rw [List.length_drop] at hk
  refine ⟨n + k, by omega, by omega, ?_⟩
  rw [← he, List.getElem_drop]

/-- The partition step of the quicksort model: on segments of at least
17 indices it returns a split whose concatenation permutes the input,
with every left key at most the pivot key and every right key at least
the pivot key. -/
theorem npPartition_spec (v : Nat → Nat) (t : List Nat) (hm : 17 ≤ t.length) :
    (((npPartition v t).1 ++ (npPartition v t).2.1 :: (npPartition v t).2.2).Perm t) ∧
    (∀ x ∈ (npPartition v t).1, v x ≤ v (npPartition v t).2.1) ∧
    (∀ x ∈ (npPartition v t).2.2, v (npPartition v t).2.1 ≤ v x) := by
  obtain ⟨pm1, lm1, km1, km2⟩ := medianOf3_spec v t hm
  have hloop := partitionLoop_spec v (keyAt v (medianOf3 v t) (t.length - 2)) t.length
    (medianOf3 v t) 0 (t.length - 2) (by omega) (by omega) (by rw [lm1]) ?hA ?hB ?hP
  case hA =>
    intro k hk
    have hk0 : k = 0 := by omega
    rw [hk0]
    exact km1
  case hB =>
    intro k hk1 hk2
    rw [lm1] at hk2
    have : k = t.length - 2 ∨ k = t.length - 1 := by omega
    rcases this with rfl | rfl
    · exact Nat.le_refl _
    · exact km2
  case hP => rw [lm1]
  obtain ⟨lp, ll, lleft, lright, lpiv, l0, lle⟩ := hloop
  rw [lm1] at ll lright lpiv lle
  set t1 := medianOf3 v t with ht1
  set vp := keyAt v t1 (t.length - 2) with hvp
  set res := partitionLoop v vp t.length t1 0 (t.length - 2) with hres
  set t2 := res.1 with ht2
  set pi := res.2 with hpi
  have hpilt : pi < t2.length := by omega
  have hm2lt : t.length - 2 < t2.length := by omega
  set t3 := listSwap t2 pi (t.length - 2) with ht3
  have hl3 : t3.length = t.length := by
    rw [ht3, listSwap_length]
    omega
  have hperm3 : t3.Perm t2 := listSwap_perm t2 _ _ hpilt hm2lt
  have hkey3 : ∀ k, keyAt v t3 k =
      if t.length - 2 = k then keyAt v t2 pi
      else if pi = k then keyAt v t2 (t.length - 2)
      else keyAt v t2 k :=
    fun k => keyAt_listSwap v t2 _ _ k hpilt hm2lt
  have hkpivot : keyAt v t3 pi = vp := by
    rw [hkey3 pi]
    by_cases he : t.length - 2 = pi
    · rw [if_pos he, ← he]
      exact lpiv
    · rw [if_neg he, if_pos rfl]
      exact lpiv
  have hkleft : ∀ k, k < pi → keyAt v t3 k ≤ vp := by
    intro k hk
    rw [hkey3 k, if_neg (by omega), if_neg (by omega)]
    exact lleft k hk
  have hkright : ∀ k, pi < k → k < t.length → vp ≤ keyAt v t3 k := by
    intro k hk1 hk2
    rw [hkey3 k]
    by_cases he : t.length - 2 = k
    · rw [if_pos he]
      exact lright pi (Nat.le_refl pi) (by omega)
    · rw [if_neg he, if_neg (by omega)]
      exact lright k (by omega) hk2
  have hsplit : npPartition v t = (t3.take pi, t3.getD pi 0, t3.drop (pi + 1)) := rfl
  rw [hsplit]
  have hpilt3 : pi < t3.length := by omega
  have hjoin : t3.take pi ++ t3.getD pi 0 :: t3.drop (pi + 1) = t3 := by
    rw [List.getD_eq_getElem t3 0 hpilt3, ← List.drop_eq_getElem_cons hpilt3,
      List.take_append_drop]
  have hvpix : v (t3.getD pi 0) = vp := hkpivot
  refine ⟨?_, ?_, ?_⟩
  · rw [hjoin]
    exact hperm3.trans (lp.trans pm1)
  · intro x hx
    obtain ⟨k, hk, hklen, hke⟩ := mem_take_getElem t3 pi x hx
    have : keyAt v t3 k ≤ vp := hkleft k hk
    rw [keyAt, List.getD_eq_getElem t3 0 hklen, hke] at this
    rw [hvpix]
    exact this
  · intro x hx
    obtain ⟨k, hk, hklen, hke⟩ := mem_drop_getElem t3 (pi + 1) x hx
    have : vp ≤ keyAt v t3 k := hkright k (by omega) (by omega)
    rw [keyAt, List.getD_eq_getElem t3 0 hklen, hke] at this
    rw [hvpix]
    exact this

/- The argsort quicksort model: sortedness and permutation. -/

/-- The quicksort model permutes its input, whatever the fuel. -/
theorem npQuicksortF_perm (v : Nat → Nat) :
    ∀ fuel t, (npQuicksortF v fuel t).Perm t := by
  intro fuel
  induction fuel with
  | zero =>
    intro t
    exact List.perm_insertionSort _ t
  | succ fuel ih =>
    intro t
    rw [npQuicksortF]
    by_cases h : t.length ≤ 16
    · rw [if_pos h]
      exact List.perm_insertionSort _ t
    · rw [if_neg h]
      obtain ⟨hp, -, -⟩ := npPartition_spec v t (by omega)
      exact (List.Perm.append (ih (npPartition v t).1)
        ((ih (npPartition v t).2.2).cons (npPartition v t).2.1)).trans hp

/-- The quicksort model sorts by key, whatever the fuel. -/
theorem npQuicksortF_sorted (v : Nat → Nat) :
    ∀ fuel t, List.Sorted (fun a b => v a ≤ v b) (npQuicksortF v fuel t) := by
  haveI inst1 : IsTotal Nat (fun a b => v a ≤ v b) :=
    ⟨fun a b => Nat.le_total (v a) (v b)⟩
  haveI inst2 : IsTrans Nat (fun a b => v a ≤ v b) :=
    ⟨fun a b c h1 h2 => Nat.le_trans h1 h2⟩
  intro fuel
  induction fuel with
  | zero =>
    intro t
    exact List.sorted_insertionSort _ t
  | succ fuel ih =>
    intro t
    rw [npQuicksortF]
    by_cases h : t.length ≤ 16
    · rw [if_pos h]
      exact List.sorted_insertionSort _ t
    · rw [if_neg h]
      obtain ⟨hp, hle, hge⟩ := npPartition_spec v t (by omega)
      refine List.pairwise_append.mpr ⟨ih (npPartition v t).1, ?_, ?_⟩
      · refine List.pairwise_cons.mpr ⟨?_, ih (npPartition v t).2.2⟩
        intro b hb
        exact hge b ((npQuicksortF_perm v fuel _).subset hb)
      · intro a ha b hb
        have ha2 := (npQuicksortF_perm v fuel _).subset ha
        rcases List.mem_cons.mp hb with rfl | hb
        · exact hle a ha2
        · exact Nat.le_trans (hle a ha2)
            (hge b ((npQuicksortF_perm v fuel _).subset hb))

/-- The argsort permutes the positions. -/
theorem npArgsort_perm (keys : List Nat) :
    (npArgsort keys).Perm (List.range keys.length) :=
  npQuicksortF_perm _ _ _

/-- The argsort orders the positions by key. -/
theorem npArgsort_sorted (keys : List Nat) :
    List.Sorted (fun i j => keys.getD i 0 ≤ keys.getD j 0) (npArgsort keys) :=
  npQuicksortF_sorted _ _ _

/-- Reading every position of a list back in order gives the list. -/
theorem map_getD_range {α : Type} (l : List α) (d : α) :
    (List.range l.length).map (fun i => l.getD i d) = l := by
  apply List.ext_getElem
  · simp
  · intro n h1 h2
    simp [List.getElem_map, List.getElem_range, List.getD_eq_getElem l d,
      List.getElem?_eq_getElem h2]

/-- The date keys read through positions, with matching defaults. -/
theorem keys_getD_date (rows : List Txn) (i : Nat) :
    (rows.map Txn.date).getD i 0 = (rows.getD i default).date := by
  rw [List.getD_eq_getElem?_getD, List.getD_eq_getElem?_getD, List.getElem?_map]
  cases rows[i]? with
  | none => rfl
  | some x => rfl

/-- The modelled `sort_values` permutes the rows. -/
theorem pdSortValuesByDate_perm (rows : List Txn) :
    (pdSortValuesByDate rows).Perm rows := by
  rw [pdSortValuesByDate]
  have h1 := (npArgsort_perm (rows.map Txn.date)).map (fun i => rows.getD i default)
  rw [List.length_map] at h1
  have h3 : ((List.range rows.length).map (fun i => rows.getD i default)).Perm rows := by
    rw [map_getD_range rows default]
  exact h1.trans h3

/-- The modelled `sort_values` orders the rows by date. -/
theorem pdSortValuesByDate_sorted (rows : List Txn) :
    List.Sorted (fun a b : Txn => a.date ≤ b.date) (pdSortValuesByDate rows) := by
  rw [pdSortValuesByDate]
  have hs := npArgsort_sorted (rows.map Txn.date)
  refine List.Pairwise.map _ ?_ hs
  intro i j hij
  rw [keys_getD_date, keys_getD_date] at hij
  exact hij

/- Results of a successful process_files run. -/

/-- A successful `process_files` returns exactly the merged records,
deduplicated, sorted by date and categorized. -/
theorem process_files_ok_eq (a : Analyzer) (ts : List RawTable) (r : List CTxn)
    (h : (process_files a ts).2 = Except.ok r) :
    r = (pdSortValuesByDate (drop_duplicates (successRecords ts).flatten)).map
      add_category := by
  simp only [process_files] at h
  rw [apply_ite Prod.snd] at h
  split at h
  · cases h
  · injection h with h
    exact h.symm

/-- C5 (amended): every transaction list returned by `process_files` is
ascending in date: each adjacent pair a, b satisfies a.date ≤ b.date.
Equal-date records are not guaranteed to keep their pre-sort relative
order, since the pandas default sort kind is numpy's quicksort. -/
theorem process_files_sorted_by_date (a : Analyzer) (ts : List RawTable)
    (r : List CTxn) (h : (process_files a ts).2 = Except.ok r) :
    List.Chain' (fun x y : CTxn => x.date ≤ y.date) r := by
  rw [process_files_ok_eq a ts r h]
  have hs := pdSortValuesByDate_sorted (drop_duplicates (successRecords ts).flatten)
  have hps : List.Sorted (fun x y : CTxn => x.date ≤ y.date)
      ((pdSortValuesByDate (drop_duplicates (successRecords ts).flatten)).map
        add_category) := by
    refine List.Pairwise.map _ ?_ hs
    intro x y hxy
    exact hxy
  exact hps.chain'

/-- C5 (witness): a two-row file arrives out of order and is returned
sorted ascending by date. -/
theorem process_files_sorted_witness :
    List.Chain' (fun x y : CTxn => x.date ≤ y.date)
      [⟨20240105, "2024-01-05", 1, "other"⟩, ⟨20240106, "2024-01-06", 2, "other"⟩] :=
  process_files_sorted_by_date ⟨none⟩ [exTableSort] _ rfl

/-- C5 (counterexample): all seventeen merged records share one date, so
a stable sort would keep their merged order, amounts 1..17; the list
`process_files` returns carries the amounts scrambled — the order of
equal-date records is not preserved (numpy's quicksort partitions
segments of 17 or more and swaps tied keys). -/
theorem sort_stability_counterexample :
    ((successRecords [exTableC5]).flatten.map Txn.date).all
        (fun d => d = 20240105) = true
    ∧ (process_files ⟨none⟩ [exTableC5]).2.toOption.map (List.map CTxn.amount) =
        some [1, 15, 14, 13, 12, 11, 10, 16, 9, 7, 6, 5, 4, 3, 2, 8, 17]
    ∧ (successRecords [exTableC5]).flatten.map Txn.amount ≠
        [1, 15, 14, 13, 12, 11, 10, 16, 9, 7, 6, 5, 4, 3, 2, 8, 17] :=
  ⟨rfl, rfl, by decide⟩

/-- C6: duplicate (date, description, amount) triples are removed before
categories are assigned: every triple present in the merged input
appears in the returned list exactly once, and every returned record
carries the category computed from its own description. -/
theorem process_files_dedup_unique_triple (a : Analyzer) (ts : List RawTable)
    (r : List CTxn) (x : Txn) (h : (process_files a ts).2 = Except.ok r)
    (hx : x ∈ (successRecords ts).flatten) :
    r.countP (fun c => decide (c.date = x.date ∧ c.description = x.description ∧
      c.amount = x.amount)) = 1
    ∧ ∀ c ∈ r, c.category = categorize_transaction c.description := by
  have hr := process_files_ok_eq a ts r h
  subst hr
  constructor
  · rw [List.countP_map]
    have hperm := pdSortValuesByDate_perm (drop_duplicates (successRecords ts).flatten)
    rw [hperm.countP_eq]
    have hpt : ∀ y : Txn, ((fun c : CTxn => decide (c.date = x.date ∧
        c.description = x.description ∧ c.amount = x.amount)) ∘ add_category) y =
        (y == x) := by
      intro y
      simp only [Function.comp, add_category]
      by_cases hyx : y = x
      · subst hyx
        simp
      · have hno : ¬ (y.date = x.date ∧ y.description = x.description ∧
            y.amount = x.amount) := by
          rintro ⟨h1, h2, h3⟩
          refine hyx ?_
          cases y
          cases x
          simp_all
        simp [hno, hyx]
    rw [List.countP_congr (fun y _ => by rw [hpt y])]
    show (drop_duplicates (successRecords ts).flatten).count x = 1
    exact List.count_eq_one_of_mem (nodup_drop_duplicates _)
      ((mem_drop_duplicates x _).mpr hx)
  · intro c hc
    obtain ⟨y, -, rfl⟩ := List.mem_map.mp hc
    rfl

/-- C6 (witness): two identical files yield one identical triple each;
the returned set holds it exactly once, categorized "other". -/
theorem process_files_dedup_witness :
    List.countP (fun c : CTxn => decide (c.date = (20240105 : Nat) ∧
        c.description = "2024-01-05" ∧ c.amount = (45 : Rat)))
      [⟨20240105, "2024-01-05", 45, "other"⟩] = 1
    ∧ ∀ c ∈ ([⟨20240105, "2024-01-05", 45, "other"⟩] : List CTxn),
        c.category = categorize_transaction c.description :=
  process_files_dedup_unique_triple ⟨none⟩ [exTableDup, exTableDup]
    [⟨20240105, "2024-01-05", 45, "other"⟩] ⟨20240105, "2024-01-05", 45⟩ rfl
    (by decide)
